import Mathlib

/-!
Verification of the PowerOfTwoPairs search engine.

This file embeds the core algorithms of `PowerOfTwoPairs.cpp` in Lean:
64-bit two's-complement arithmetic, the `is_power_of_two` bit trick,
power pairs and power triplets, the `number_set_t` operations
(`count_pairs`, `generate_pairs`, `simplify`), the hill-climbing improver
(`improve_number_set`, `update_best_number_set`) and the lexicographic
combination enumerator (`combiner_t::combine`), and proves or refutes the
specification claims about them.

Machine integers (`my_int_t = int64_t`) are modelled as mathematical `Int`
together with explicit wrapping: `wrap64` reduces a value into
`[-2^63, 2^63)` and `toBits` gives the 64-bit two's-complement bit
pattern as a `Nat < 2^64`.  The C++ `&` on 64-bit values is modelled by
the fuel-structural `landAux`/`land64` (bitwise and of the two patterns).
`unordered_set<my_int_t>` is modelled as the list of elements in iteration
order (`List Int`, no duplicates); all counting results proved here are
invariant under permutation of that order.
-/

namespace PowerOfTwoPairs

/-- Two's-complement wrap of an integer into `[-2^63, 2^63)`,
the value semantics of `int64_t` overflow. -/
def wrap64 (n : Int) : Int := (n + 2 ^ 63) % 2 ^ 64 - 2 ^ 63

/-- The 64-bit two's-complement bit pattern of an integer, as a `Nat`. -/
def toBits (n : Int) : Nat := (n % 2 ^ 64).toNat

/-- Bitwise and computed bit by bit with explicit fuel (structural, so the
kernel can evaluate it); `landAux f a b` is the and of the low `f` bits. -/
def landAux : Nat → Nat → Nat → Nat
  | 0, _, _ => 0
  | f + 1, a, b => (if a % 2 = 1 ∧ b % 2 = 1 then 1 else 0) + 2 * landAux f (a / 2) (b / 2)

/-- Bitwise and of two 64-bit patterns, the model of `&` on `my_int_t`. -/
def land64 (a b : Nat) : Nat := landAux 64 a b

/-- Source: `bool is_power_of_two(my_int_t number) { return number != 0 && (number & (number - 1)) == 0; }`.
The subtraction `number - 1` is 64-bit arithmetic, hence the patterns. -/
def is_power_of_two (number : Int) : Bool :=
  number != 0 && land64 (toBits number) (toBits (number - 1)) == 0

/-- Source: `power_pair_t` constructor stores `min` then `max`. -/
def mk_power_pair (i j : Int) : Int × Int := (min i j, max i j)

/-- Source: `power_triplet_t` with fields `a b c`. -/
structure power_triplet_t where
  a : Int
  b : Int
  c : Int
deriving DecidableEq

/-- Source: the `power_triplet_t(i, j, k)` constructor:
`a = min {i,j,k}`, `c = max {i,j,k}`, `b = i + j + k - a - c`. -/
def mk_power_triplet (i j k : Int) : power_triplet_t :=
  { a := min i (min j k)
    b := i + j + k - min i (min j k) - max i (max j k)
    c := max i (max j k) }

/-- Source: `power_triplet_t::count_overlaps`: the sum of the nine equality
indicators, except that a total of 3 is reported as 0. -/
def count_overlaps (t o : power_triplet_t) : Int :=
  let count : Int :=
    (if t.a = o.a then 1 else 0) +
    (if t.a = o.b then 1 else 0) +
    (if t.a = o.c then 1 else 0) +
    (if t.b = o.a then 1 else 0) +
    (if t.b = o.b then 1 else 0) +
    (if t.b = o.c then 1 else 0) +
    (if t.c = o.a then 1 else 0) +
    (if t.c = o.b then 1 else 0) +
    (if t.c = o.c then 1 else 0)
  if count = 3 then 0 else count

/-- Modelled from the spec (for comparison with `count_overlaps`): the
number of values of `t` that occur among the values of `o`. -/
def shared_values_count (t o : power_triplet_t) : Int :=
  (if t.a = o.a ∨ t.a = o.b ∨ t.a = o.c then 1 else 0) +
  (if t.b = o.a ∨ t.b = o.b ∨ t.b = o.c then 1 else 0) +
  (if t.c = o.a ∨ t.c = o.b ∨ t.c = o.c then 1 else 0)

/-- Source: `gen_powers_of_two()` inserts `1 << pow` for `pow = 0 .. 9`. -/
def powers_of_two : List Int := (List.range 10).map (fun pow => 2 ^ pow)

/-- Source: `number_set_t::count_pairs()`: the double loop `i1` over the
set, `i2` after `i1`, counting pairs whose (64-bit) sum passes
`is_power_of_two`.  The list is the iteration order of `numbers`. -/
def count_pairs : List Int → Nat
  | [] => 0
  | x :: t => t.countP (fun y => is_power_of_two (wrap64 (x + y))) + count_pairs t

/-- Source: `number_set_t::generate_pairs()`: same double loop, emitting
`power_pair_t(n1, n2)` for each qualifying pair. -/
def generate_pairs : List Int → List (Int × Int)
  | [] => []
  | x :: t =>
    (t.filter (fun y => is_power_of_two (wrap64 (x + y)))).map (fun y => mk_power_pair x y)
      ++ generate_pairs t

/-- Source: the `std::all_of` condition of `number_set_t::simplify()`:
every element has `number % 2 == 0` (C++ truncated remainder). -/
def all_even (l : List Int) : Bool := l.all (fun number => Int.tmod number 2 == 0)

/-- Source: one pass of the `simplify()` loop body: insert `number / 2`
(C++ truncating division) for every element into a fresh set. -/
def halve (l : List Int) : List Int := (l.map (fun number => Int.tdiv number 2)).dedup

/-- Source: `number_set_t::simplify()`: while all elements are even, halve
them all.  The C++ loop has no fuel; `none` means the fuel ran out before
the loop exited, so the loop terminates iff some fuel returns `some`. -/
def simplifyFuel : Nat → List Int → Option (List Int)
  | 0, _ => none
  | f + 1, l => if all_even l then simplifyFuel f (halve l) else some l

/-- The `simplify()` loop terminates on `l`. -/
def simplify_terminates (l : List Int) : Prop := ∃ f, (simplifyFuel f l).isSome

/-- Source: `improver_t`, the fields that survive across calls:
the best set seen and its pair count. -/
structure improver_t where
  best_number_set : List Int
  best_pair_count : Nat

/-- Source: `improver_t::update_best_number_set`: replace the best set
only when the candidate's pair count strictly exceeds the best count. -/
def update_best_number_set (st : improver_t) (number_set : List Int) : improver_t :=
  if st.best_pair_count < count_pairs number_set then
    { best_number_set := number_set, best_pair_count := count_pairs number_set }
  else st

/-- Source: in `improve_number_set`, the tally `pair_count_per_numbers`:
iterating `generate_pairs` and incrementing the map entry of `pair.a` and
of `pair.b` gives each number the count of generated pairs containing it. -/
def pair_count_of (l : List Int) (x : Int) : Nat :=
  (generate_pairs l).countP (fun p => p.1 == x || p.2 == x)

/-- Source: the key set of the `std::map` tally, iterated in ascending key
order: the distinct numbers that occur in some generated pair. -/
def map_keys (l : List Int) : List Int :=
  (((generate_pairs l).flatMap (fun p => [p.1, p.2])).dedup).insertionSort (· ≤ ·)

/-- Source: the min-scan over the tally in `improve_number_set`: running
worst list and worst count, starting from the previous (stale) vector
contents and the sentinel `1000000`; a strictly smaller count resets the
list, an equal one appends. -/
def find_worst : List (Int × Nat) → List Int × Nat → List Int × Nat
  | [], acc => acc
  | e :: rest, acc =>
    find_worst rest
      (if e.2 < acc.2 then ([e.1], e.2)
       else if e.2 = acc.2 then (acc.1 ++ [e.1], acc.2) else acc)

/-- The `worst_numbers` vector after the min-scan of `improve_number_set`,
given its previous contents `prev` (the member vector is never cleared). -/
def worst_numbers (prev l : List Int) : List Int :=
  (find_worst ((map_keys l).map (fun x => (x, pair_count_of l x))) (prev, 1000000)).1

/-- The local `worst_pair_count` after the min-scan of `improve_number_set`. -/
def worst_pair_count (prev l : List Int) : Nat :=
  (find_worst ((map_keys l).map (fun x => (x, pair_count_of l x))) (prev, 1000000)).2

/-- Source: the candidate scan of `improve_number_set`: for each power of
two `p` in the `powers_of_two` iteration order and each member
`x`, the candidate `p - x` (64-bit subtraction) unless already a member,
paired with each current worst number. -/
def improve_candidates (prev l : List Int) : List (Int × Int) :=
  powers_of_two.flatMap (fun power =>
    l.flatMap (fun number =>
      if l.contains (wrap64 (power - number)) then []
      else (worst_numbers prev l).map (fun w => (wrap64 (power - number), w))))

/-- Source: `maybe_pair_count` in `improve_number_set`: how many members
other than `worst_number` form a power pair with the candidate. -/
def maybe_pair_count (l : List Int) (w m : Int) : Nat :=
  l.countP (fun number => number != w && is_power_of_two (wrap64 (number + m)))

/-- Source: the push of `improve_number_set`: the first candidate/worst
combination whose tentative count beats `worst_pair_count` is swapped in
(erase the worst member, insert the candidate) and pushed; the function
then returns, so at most one set is pushed per invocation. -/
def improve_step (prev l : List Int) : List (List Int) :=
  match (improve_candidates prev l).find?
      (fun e => worst_pair_count prev l < maybe_pair_count l e.2 e.1) with
  | some e => [(l.erase e.2) ++ [e.1]]
  | none => []

/-- Source: in `combiner_t::combine`, the advance condition subtraction
`triplets.size() - (number_set_size - which_indice - 1)` is `size_t`
arithmetic: subtraction modulo `2^64`. -/
def usub64 (a b : Nat) : Nat := (a + (2 ^ 64 - b % 2 ^ 64)) % 2 ^ 64

/-- Source: the index-advance loop of `combiner_t::combine`, acting on the
non-frozen suffix of the index vector: try the rightmost position first;
a position with `index + 1 < n - (slots after it)` is incremented and the
positions after it reset to consecutive values; otherwise exhausted. -/
def advanceAux (n : Nat) : List Nat → Option (List Nat)
  | [] => none
  | x :: rest =>
    match advanceAux n rest with
    | some rest' => some (x :: rest')
    | none =>
      if x + 1 < usub64 n rest.length then some ((x + 1) :: List.range' (x + 2) rest.length)
      else none

/-- Source: the initial index vector of `combiner_t::combine` minus the
frozen part: with no preset indices it is `0, 1, ..., k-1`; with presets
it continues consecutively after the last preset index. -/
def init_suffix (k : Nat) (preset : List Nat) : List Nat :=
  match preset.getLast? with
  | none => List.range' 0 k
  | some x => List.range' (x + 1) (k - preset.length)

/-- The states visited by iterating `advanceAux` from `s`, with fuel
(the C++ loop runs until `advanceAux` is exhausted). -/
def visitsFuel (n : Nat) : Nat → List Nat → List (List Nat)
  | 0, _ => []
  | f + 1, s =>
    s :: (match advanceAux n s with
          | none => []
          | some s2 => visitsFuel n f s2)

/-- Source: `combiner_t::combine()` over `n` triplets, desired set size
`k` and frozen preset indices: the list of index tuples visited, in visit
order; each visited tuple is loaded into the `number_set_t` and passed to
`improver.improve`.  With `k = 0` the function returns at once.  The fuel
`(n+1)^k + 1` is proved sufficient below. -/
def combineVisits (n k : Nat) (preset : List Nat) : List (List Nat) :=
  if k = 0 then []
  else (visitsFuel n ((n + 1) ^ k + 1) (init_suffix k preset)).map (fun s => preset ++ s)

/-- Whether the run of `combiner_t::combine()` indexes `triplets[i]` out
of range for some visited tuple (`n` is the triplet count). -/
def combine_oob (n k : Nat) (preset : List Nat) : Bool :=
  !((combineVisits n k preset).all (fun t => t.all (fun i => i < n)))

/-- Proof-side enumerator: all strictly increasing `m`-tuples with entries
in `[a, n)`, in lexicographic order (head `a` first, then heads `> a`). -/
def combsFrom (n : Nat) (a : Nat) (m : Nat) : List (List Nat) :=
  match m with
  | 0 => [[]]
  | m + 1 =>
    if _h : a + m < n then
      ((combsFrom n (a + 1) m).map (fun s => a :: s)) ++ combsFrom n (a + 1) (m + 1)
    else []
termination_by n - a
decreasing_by
  all_goals omega

/-! ### Bitwise lemmas for the `is_power_of_two` bit trick -/

lemma landAux_zero_left : ∀ f b, landAux f 0 b = 0
  | 0, _ => rfl
  | f + 1, b => by simp [landAux, landAux_zero_left f (b / 2)]

lemma landAux_self : ∀ f a, a < 2 ^ f → landAux f a a = a := by
  intro f
  induction f with
  | zero =>
    intro a ha
    have h0 : a = 0 := by omega
    subst h0; rfl
  | succ f ih =>
    intro a ha
    have hp : 2 ^ (f + 1) = 2 ^ f * 2 := pow_succ 2 f
    have h2 : a / 2 < 2 ^ f := by omega
    simp only [landAux, ih (a / 2) h2]
    split_ifs with h <;> omega

lemma landAux_pred (f : Nat) :
    ∀ u, 1 ≤ u → u < 2 ^ f → (landAux f u (u - 1) = 0 ↔ ∃ k, u = 2 ^ k) := by
  induction f with
  | zero =>
    intro u h1 h2
    exfalso; omega
  | succ f ih =>
    intro u h1 h2
    have hp : 2 ^ (f + 1) = 2 ^ f * 2 := pow_succ 2 f
    by_cases hu1 : u = 1
    · subst hu1
      have hval : landAux (f + 1) 1 (1 - 1) = 0 := by
        simp [landAux, landAux_zero_left]
      rw [hval]
      exact ⟨fun _ => ⟨0, rfl⟩, fun _ => rfl⟩
    · rcases Nat.even_or_odd u with he | ho
      · obtain ⟨v, hv⟩ := he
        have hv1 : 1 ≤ v := by omega
        have hvf : v < 2 ^ f := by omega
        have hu2 : u / 2 = v := by omega
        have hum : (u - 1) / 2 = v - 1 := by omega
        have hval : landAux (f + 1) u (u - 1) = 2 * landAux f v (v - 1) := by
          simp only [landAux, hu2, hum]
          split_ifs with h
          · omega
          · omega
        rw [hval]
        have ihv := ih v hv1 hvf
        constructor
        · intro h0
          obtain ⟨k, hk⟩ := ihv.mp (by omega)
          refine ⟨k + 1, ?_⟩
          rw [pow_succ]
          omega
        · rintro ⟨k, hk⟩
          rcases k with _ | k
          · omega
          · have hvk : v = 2 ^ k := by rw [pow_succ] at hk; omega
            have := ihv.mpr ⟨k, hvk⟩
            omega
      · obtain ⟨v, hv⟩ := ho
        have hv1 : 1 ≤ v := by omega
        have hvf : v < 2 ^ f := by omega
        have hu2 : u / 2 = v := by omega
        have hum : (u - 1) / 2 = v := by omega
        have hval : landAux (f + 1) u (u - 1) = 2 * v := by
          simp only [landAux, hu2, hum, landAux_self f v hvf]
          split_ifs with h
          · omega
          · omega
        rw [hval]
        constructor
        · intro h; omega
        · rintro ⟨k, hk⟩
          rcases k with _ | k
          · omega
          · rw [pow_succ] at hk; omega

lemma land64_pred (u : Nat) (h1 : 1 ≤ u) (h2 : u < 2 ^ 64) :
    land64 u (u - 1) = 0 ↔ ∃ k, u = 2 ^ k :=
  landAux_pred 64 u h1 h2

lemma is_p2_eq_true_iff (n : Int) :
    is_power_of_two n = true ↔ n ≠ 0 ∧ land64 (toBits n) (toBits (n - 1)) = 0 := by
  simp [is_power_of_two]

lemma toBits_eq_toNat (n : Int) (h1 : 0 ≤ n) (h2 : n < 2 ^ 64) : toBits n = n.toNat := by
  unfold toBits
  have h : n % 2 ^ 64 = n := by omega
  rw [h]

/-- The full characterization of the bit trick on the `int64_t` domain:
true exactly on the genuine powers of two and on `-2^63` (whose pattern
has a single bit). -/
lemma is_p2_char (n : Int) (h1 : -(2 ^ 63) ≤ n) (h2 : n < 2 ^ 63) :
    (is_power_of_two n = true ↔ (∃ k : Nat, n = 2 ^ k) ∨ n = -(2 ^ 63)) := by
  rw [is_p2_eq_true_iff]
  rcases lt_trichotomy n 0 with hn | hn | hn
  · -- negative values: the pattern is `n + 2^64 ∈ [2^63, 2^64)`
    have hb1 : toBits n = (n + 2 ^ 64).toNat := by
      unfold toBits
      have h : n % 2 ^ 64 = n + 2 ^ 64 := by omega
      rw [h]
    have hb2 : toBits (n - 1) = (n + 2 ^ 64).toNat - 1 := by
      unfold toBits
      have h : (n - 1) % 2 ^ 64 = n - 1 + 2 ^ 64 := by omega
      rw [h]; omega
    rw [hb1, hb2]
    have hu1 : 1 ≤ (n + 2 ^ 64).toNat := by omega
    have hu2 : (n + 2 ^ 64).toNat < 2 ^ 64 := by omega
    rw [land64_pred _ hu1 hu2]
    constructor
    · rintro ⟨-, k, hk⟩
      right
      have hk64 : k < 64 := by
        by_contra hge
        have : 2 ^ 64 ≤ 2 ^ k := Nat.pow_le_pow_right (by norm_num) (by omega)
        omega
      have hk63 : 63 ≤ k := by
        by_contra hlt
        have : 2 ^ k ≤ 2 ^ 62 := Nat.pow_le_pow_right (by norm_num) (by omega)
        have h63 : (2 : Nat) ^ 62 < 2 ^ 63 := by norm_num
        omega
      have : k = 63 := by omega
      subst this
      have h2k : (2 : Nat) ^ 63 = 9223372036854775808 := by norm_num
      omega
    · rintro (⟨k, hk⟩ | hk)
      · exfalso
        have : (0 : Int) < 2 ^ k := by positivity
        omega
      · subst hk
        refine ⟨by omega, 63, ?_⟩
        have h2k : (2 : Nat) ^ 63 = 9223372036854775808 := by norm_num
        omega
  · -- zero
    subst hn
    constructor
    · rintro ⟨h, -⟩; exact absurd rfl h
    · rintro (⟨k, hk⟩ | hk)
      · exfalso
        have : (0 : Int) < 2 ^ k := by positivity
        omega
      · exact absurd hk (by norm_num)
  · -- positive values below `2^63`
    have hb1 : toBits n = n.toNat := toBits_eq_toNat n (by omega) (by omega)
    have hb2 : toBits (n - 1) = n.toNat - 1 := by
      rw [toBits_eq_toNat (n - 1) (by omega) (by omega)]; omega
    rw [hb1, hb2]
    have hu1 : 1 ≤ n.toNat := by omega
    have hu2 : n.toNat < 2 ^ 64 := by
      have : (2 : Int) ^ 63 < 2 ^ 64 := by norm_num
      omega
    rw [land64_pred _ hu1 hu2]
    constructor
    · rintro ⟨-, k, hk⟩
      left
      refine ⟨k, ?_⟩
      have hcast := congrArg (fun m : Nat => (m : Int)) hk
      push_cast at hcast
      rw [Int.toNat_of_nonneg (by omega)] at hcast
      exact hcast
    · rintro (⟨k, hk⟩ | hk)
      · refine ⟨by omega, k, ?_⟩
        have hpow : ((2 ^ k : Nat) : Int) = (2 : Int) ^ k := by push_cast; ring
        rw [hk, ← hpow, Int.toNat_natCast]
      · exfalso; omega

/-! ### C2: characterization of `is_power_of_two` on the 64-bit domain -/

/-- C2 (amended): for every signed 64-bit integer `n`,
`is_power_of_two n` is true iff `n = 2^k` for some `k ≥ 0` or `n` is the
most negative value `-2^63` (whose two's-complement pattern has a single
set bit, so the bit trick also accepts it). -/
theorem is_power_of_two_characterization (n : Int) (h1 : -(2 ^ 63) ≤ n) (h2 : n < 2 ^ 63) :
    (is_power_of_two n = true ↔ (∃ k : Nat, n = 2 ^ k) ∨ n = -(2 ^ 63)) :=
  is_p2_char n h1 h2

set_option maxRecDepth 10000 in
/-- C2 counterexample: the claim "false for every negative n" fails at
`n = -2^63`, where the bit trick returns true. -/
theorem is_power_of_two_neg_min : is_power_of_two (-(2 ^ 63)) = true ∧ (-(2 ^ 63) : Int) < 0 := by
  constructor
  · decide
  · norm_num

/-- C2 witness: the characterization applied at the concrete input `8`. -/
theorem is_power_of_two_characterization_w : is_power_of_two 8 = true :=
  (is_power_of_two_characterization 8 (by norm_num) (by norm_num)).mpr (Or.inl ⟨3, by norm_num⟩)

/-! ### C8: `count_pairs` agrees with `generate_pairs` -/

/-- C8: for every number set (in any iteration order), `count_pairs`
equals the length of the list built by `generate_pairs`. -/
theorem count_pairs_eq_length_generate_pairs (l : List Int) :
    count_pairs l = (generate_pairs l).length := by
  induction l with
  | nil => rfl
  | cons x t ih =>
    simp [count_pairs, generate_pairs, ih, List.countP_eq_length_filter]

/-! ### C3: termination of `simplify()` -/

lemma simplifyFuel_zero_list : ∀ f, simplifyFuel f [(0 : Int)] = none := by
  intro f
  induction f with
  | zero => rfl
  | succ f ih =>
    have h1 : all_even [(0 : Int)] = true := rfl
    have h2 : halve [(0 : Int)] = [(0 : Int)] := rfl
    simp [simplifyFuel, h1, h2, ih]

/-- C3 counterexample: on the set `{0}` every element is even forever, so
the halving loop of `simplify()` never exits. -/
theorem simplify_diverges_on_zero : ¬ simplify_terminates [(0 : Int)] := by
  rintro ⟨f, hf⟩
  rw [simplifyFuel_zero_list f] at hf
  simp at hf

lemma simplify_terminates_aux :
    ∀ (N : Nat) (l : List Int) (x : Int), x.natAbs ≤ N → x ∈ l → x ≠ 0 →
      simplify_terminates l := by
  intro N
  induction N with
  | zero =>
    intro l x hle hmem hne
    exfalso; omega
  | succ N ih =>
    intro l x hle hmem hne
    by_cases h : all_even l = true
    · have hxe : Int.tmod x 2 = 0 := by
        simp only [all_even, List.all_eq_true, beq_iff_eq] at h
        exact h x hmem
      have hsplit := Int.tmod_add_tdiv x 2
      have hx2 : x = 2 * Int.tdiv x 2 := by omega
      have htm : Int.tdiv x 2 ∈ halve l := by
        unfold halve
        rw [List.mem_dedup]
        exact List.mem_map.mpr ⟨x, hmem, rfl⟩
      have htne : Int.tdiv x 2 ≠ 0 := by intro h0; apply hne; omega
      have htabs : (Int.tdiv x 2).natAbs ≤ N := by omega
      obtain ⟨f, hf⟩ := ih (halve l) (Int.tdiv x 2) htabs htm htne
      refine ⟨f + 1, ?_⟩
      simpa [simplifyFuel, h] using hf
    · refine ⟨1, ?_⟩
      simp [simplifyFuel, h]

/-- C3 (amended): the `simplify()` halving loop terminates on every number
set that contains at least one nonzero element (on an all-zero or empty
set the all-even test never fails and the loop runs forever). -/
theorem simplify_terminates_of_nonzero_member (l : List Int) (h : ∃ x ∈ l, x ≠ 0) :
    simplify_terminates l := by
  obtain ⟨x, hmem, hne⟩ := h
  exact simplify_terminates_aux x.natAbs l x le_rfl hmem hne

/-- C3 witness: the amended theorem applied to the concrete set `{2}`. -/
theorem simplify_terminates_of_nonzero_member_w : simplify_terminates [(2 : Int)] :=
  simplify_terminates_of_nonzero_member [2] ⟨2, by simp, by norm_num⟩

/-! ### C7: the recorded best only improves -/

lemma update_best_mono (st : improver_t) (ns : List Int) :
    st.best_pair_count ≤ (update_best_number_set st ns).best_pair_count := by
  unfold update_best_number_set
  split_ifs with h
  · exact le_of_lt h
  · exact le_refl _

lemma foldl_update_mono (cands : List (List Int)) :
    ∀ st : improver_t, st.best_pair_count ≤ (cands.foldl update_best_number_set st).best_pair_count := by
  induction cands with
  | nil => intro st; exact le_refl _
  | cons c rest ih => intro st; exact le_trans (update_best_mono st c) (ih _)

/-- C7: across any sequence of candidate sets offered to
`update_best_number_set` (the only place `improve` writes the best), the
recorded `best_pair_count` is monotonically non-decreasing, and whenever
`best_number_set` changes, the new set's pair count strictly exceeds the
previous best and becomes the recorded best count. -/
theorem best_monotone_and_strict (st : improver_t) (cands : List (List Int)) (ns : List Int) :
    st.best_pair_count ≤ (cands.foldl update_best_number_set st).best_pair_count ∧
    ((update_best_number_set st ns).best_number_set ≠ st.best_number_set →
      st.best_pair_count < count_pairs ns ∧
      (update_best_number_set st ns).best_pair_count = count_pairs ns) := by
  refine ⟨foldl_update_mono cands st, ?_⟩
  intro hch
  unfold update_best_number_set at hch ⊢
  split_ifs at hch ⊢ with h
  · exact ⟨h, rfl⟩
  · exact absurd rfl hch

set_option maxRecDepth 10000 in
/-- C7 witness: at the concrete state with empty best and the candidate
`{1, 3}` (one power pair), the best set changes and the count increases. -/
theorem best_monotone_and_strict_w : (0 : Nat) < count_pairs [1, 3] :=
  ((best_monotone_and_strict ⟨[], 0⟩ [] [1, 3]).2 (by decide)).1

/-! ### C9: `count_overlaps` versus shared values -/

lemma row_indicator (x p q r : Int) (hpq : p < q) (hqr : q < r) :
    ((if x = p then (1 : Int) else 0) + (if x = q then 1 else 0) + (if x = r then 1 else 0))
      = if x = p ∨ x = q ∨ x = r then 1 else 0 := by
  split_ifs <;> omega

lemma count_overlaps_self (t : power_triplet_t) (h1 : t.a < t.b) (h2 : t.b < t.c) :
    count_overlaps t t = 0 := by
  simp only [count_overlaps]
  split_ifs <;> omega

/-- C9 (amended): for triplets whose three values are pairwise distinct,
`count_overlaps t t = 0` (the nine indicators sum to exactly 3, which is
reported as 0), and for two distinct such triplets `count_overlaps`
returns the exact number of shared values, which is at most 2.  A triplet
with a repeated value (constructible, though never produced by the
generator) breaks the self rule, see the counterexample. -/
theorem count_overlaps_exact (t o : power_triplet_t)
    (ht1 : t.a < t.b) (ht2 : t.b < t.c) (ho1 : o.a < o.b) (ho2 : o.b < o.c) :
    count_overlaps t t = 0 ∧
    (t ≠ o → count_overlaps t o = shared_values_count t o ∧ shared_values_count t o ≤ 2) := by
  refine ⟨count_overlaps_self t ht1 ht2, fun hne => ?_⟩
  have hne3 : ¬(t.a = o.a ∧ t.b = o.b ∧ t.c = o.c) := by
    rintro ⟨ha, hb, hc⟩
    apply hne
    cases t; cases o; simp_all
  have ra := row_indicator t.a o.a o.b o.c ho1 ho2
  have rb := row_indicator t.b o.a o.b o.c ho1 ho2
  have rc := row_indicator t.c o.a o.b o.c ho1 ho2
  have hg : ∀ A B C D E F G H I : Int,
      A + B + C + D + E + F + G + H + I = (A + B + C) + (D + E + F) + (G + H + I) := by
    intros; ring
  simp only [count_overlaps, shared_values_count]
  rw [hg, ra, rb, rc]
  split_ifs with hA hB hC h3 <;> omega

/-- C9 counterexample: a `power_triplet_t` with a repeated value compared
to itself: seven indicators fire, so `count_overlaps` returns 5, not 0. -/
theorem count_overlaps_self_of_duplicate :
    count_overlaps (mk_power_triplet 1 1 5) (mk_power_triplet 1 1 5) ≠ 0 := by
  decide

/-- C9 witness: the amended theorem applied to the concrete distinct
triplets built from `(1,2,3)` and `(1,4,-2)`. -/
theorem count_overlaps_exact_w :
    count_overlaps (mk_power_triplet 1 2 3) (mk_power_triplet 1 2 3) = 0 :=
  (count_overlaps_exact (mk_power_triplet 1 2 3) (mk_power_triplet 1 4 (-2))
    (by decide) (by decide) (by decide) (by decide)).1

/-! ### The min-scan of `improve_number_set` -/

lemma find_worst_snd_le_acc : ∀ (entries : List (Int × Nat)) (acc : List Int × Nat),
    (find_worst entries acc).2 ≤ acc.2 := by
  intro entries
  induction entries with
  | nil => intro acc; exact le_refl _
  | cons f rest ih =>
    intro acc
    simp only [find_worst]
    split_ifs with h1 h2
    · exact le_trans (ih _) (le_of_lt h1)
    · exact ih _
    · exact ih _

lemma find_worst_snd_le_entry : ∀ (entries : List (Int × Nat)) (acc : List Int × Nat)
    (e : Int × Nat), e ∈ entries → (find_worst entries acc).2 ≤ e.2 := by
  intro entries
  induction entries with
  | nil => intro acc e he; simp at he
  | cons f rest ih =>
    intro acc e he
    simp only [find_worst]
    split_ifs with h1 h2
    · rcases List.mem_cons.mp he with rfl | hmem
      · exact find_worst_snd_le_acc rest _
      · exact ih _ _ hmem
    · rcases List.mem_cons.mp he with rfl | hmem
      · exact le_trans (find_worst_snd_le_acc rest _) (by omega)
      · exact ih _ _ hmem
    · rcases List.mem_cons.mp he with rfl | hmem
      · exact le_trans (find_worst_snd_le_acc rest _) (by omega)
      · exact ih _ _ hmem

lemma find_worst_snd_eq_acc_iff : ∀ (entries : List (Int × Nat)) (acc : List Int × Nat),
    ((find_worst entries acc).2 = acc.2 ↔ ∀ e ∈ entries, acc.2 ≤ e.2) := by
  intro entries
  induction entries with
  | nil => intro acc; simp [find_worst]
  | cons f rest ih =>
    intro acc
    simp only [find_worst]
    split_ifs with h1 h2
    · constructor
      · intro h
        exfalso
        have := find_worst_snd_le_acc rest ([f.1], f.2)
        omega
      · intro h
        exfalso
        have := h f (List.mem_cons_self f rest)
        omega
    · constructor
      · intro h e he2
        rcases List.mem_cons.mp he2 with rfl | hm
        · omega
        · exact (ih (acc.1 ++ [f.1], acc.2)).mp h e hm
      · intro h
        exact (ih _).mpr (fun e he2 => h e (List.mem_cons_of_mem _ he2))
    · constructor
      · intro h e he2
        rcases List.mem_cons.mp he2 with rfl | hm
        · omega
        · exact (ih acc).mp h e hm
      · intro h
        exact (ih _).mpr (fun e he2 => h e (List.mem_cons_of_mem _ he2))

lemma find_worst_mem_iff : ∀ (entries : List (Int × Nat)) (acc : List Int × Nat) (x : Int),
    (x ∈ (find_worst entries acc).1 ↔
      (x ∈ acc.1 ∧ ∀ e ∈ entries, acc.2 ≤ e.2) ∨
      (∃ e ∈ entries, e.1 = x ∧ e.2 = (find_worst entries acc).2)) := by
  intro entries
  induction entries with
  | nil => intro acc x; simp [find_worst]
  | cons f rest ih =>
    intro acc x
    simp only [find_worst]
    split_ifs with h1 h2
    · rw [ih ([f.1], f.2) x]
      constructor
      · rintro (⟨hx, hall⟩ | ⟨e, he, hex, heR⟩)
        · rw [List.mem_singleton] at hx
          subst hx
          refine Or.inr ⟨f, List.mem_cons_self f rest, rfl, ?_⟩
          exact ((find_worst_snd_eq_acc_iff rest ([f.1], f.2)).mpr hall).symm
        · exact Or.inr ⟨e, List.mem_cons_of_mem _ he, hex, heR⟩
      · rintro (⟨hx, hall⟩ | ⟨e, he, hex, heR⟩)
        · exfalso
          have := hall f (List.mem_cons_self f rest)
          omega
        · rcases List.mem_cons.mp he with rfl | hmem
          · left
            refine ⟨by simp [← hex], ?_⟩
            exact (find_worst_snd_eq_acc_iff rest ([e.1], e.2)).mp heR.symm
          · exact Or.inr ⟨e, hmem, hex, heR⟩
    · rw [ih (acc.1 ++ [f.1], acc.2) x]
      constructor
      · rintro (⟨hx, hall⟩ | ⟨e, he, hex, heR⟩)
        · rcases List.mem_append.mp hx with hx2 | hx2
          · refine Or.inl ⟨hx2, fun e he2 => ?_⟩
            rcases List.mem_cons.mp he2 with rfl | hm
            · omega
            · exact hall e hm
          · rw [List.mem_singleton] at hx2
            subst hx2
            refine Or.inr ⟨f, List.mem_cons_self f rest, rfl, ?_⟩
            have := (find_worst_snd_eq_acc_iff rest (acc.1 ++ [f.1], acc.2)).mpr hall
            omega
        · exact Or.inr ⟨e, List.mem_cons_of_mem _ he, hex, heR⟩
      · rintro (⟨hx, hall⟩ | ⟨e, he, hex, heR⟩)
        · exact Or.inl ⟨List.mem_append.mpr (Or.inl hx),
            fun e he2 => hall e (List.mem_cons_of_mem _ he2)⟩
        · rcases List.mem_cons.mp he with rfl | hmem
          · left
            refine ⟨List.mem_append.mpr (Or.inr (by simp [← hex])), ?_⟩
            refine (find_worst_snd_eq_acc_iff rest (acc.1 ++ [e.1], acc.2)).mp ?_
            omega
          · exact Or.inr ⟨e, hmem, hex, heR⟩
    · rw [ih acc x]
      constructor
      · rintro (⟨hx, hall⟩ | ⟨e, he, hex, heR⟩)
        · refine Or.inl ⟨hx, fun e he2 => ?_⟩
          rcases List.mem_cons.mp he2 with rfl | hm
          · omega
          · exact hall e hm
        · exact Or.inr ⟨e, List.mem_cons_of_mem _ he, hex, heR⟩
      · rintro (⟨hx, hall⟩ | ⟨e, he, hex, heR⟩)
        · exact Or.inl ⟨hx, fun e he2 => hall e (List.mem_cons_of_mem _ he2)⟩
        · rcases List.mem_cons.mp he with rfl | hmem
          · exfalso
            have := find_worst_snd_le_acc rest acc
            omega
          · exact Or.inr ⟨e, hmem, hex, heR⟩

/-! ### Pair-tally lemmas -/

lemma find_worst_snd_cases : ∀ (entries : List (Int × Nat)) (acc : List Int × Nat),
    (find_worst entries acc).2 = acc.2 ∨ ∃ e ∈ entries, (find_worst entries acc).2 = e.2 := by
  intro entries
  induction entries with
  | nil => intro acc; exact Or.inl rfl
  | cons f rest ih =>
    intro acc
    simp only [find_worst]
    split_ifs with h1 h2
    · rcases ih ([f.1], f.2) with h | ⟨e, he, hee⟩
      · exact Or.inr ⟨f, List.mem_cons_self f rest, h⟩
      · exact Or.inr ⟨e, List.mem_cons_of_mem _ he, hee⟩
    · rcases ih (acc.1 ++ [f.1], acc.2) with h | ⟨e, he, hee⟩
      · exact Or.inl h
      · exact Or.inr ⟨e, List.mem_cons_of_mem _ he, hee⟩
    · rcases ih acc with h | ⟨e, he, hee⟩
      · exact Or.inl h
      · exact Or.inr ⟨e, List.mem_cons_of_mem _ he, hee⟩

lemma generate_pairs_mem (l : List Int) : ∀ p ∈ generate_pairs l, p.1 ∈ l ∧ p.2 ∈ l := by
  induction l with
  | nil => intro p hp; simp [generate_pairs] at hp
  | cons h t ih =>
    intro p hp
    simp only [generate_pairs, List.mem_append] at hp
    rcases hp with hp | hp
    · obtain ⟨y, hy, rfl⟩ := List.mem_map.mp hp
      have hyt : y ∈ t := List.mem_of_mem_filter hy
      constructor
      · show min h y ∈ h :: t
        rcases min_choice h y with hm | hm <;> rw [hm]
        · exact List.mem_cons_self h t
        · exact List.mem_cons_of_mem _ hyt
      · show max h y ∈ h :: t
        rcases max_choice h y with hm | hm <;> rw [hm]
        · exact List.mem_cons_self h t
        · exact List.mem_cons_of_mem _ hyt
    · have hmem := ih p hp
      exact ⟨List.mem_cons_of_mem _ hmem.1, List.mem_cons_of_mem _ hmem.2⟩

lemma mem_map_keys_iff (l : List Int) (x : Int) :
    x ∈ map_keys l ↔ 0 < pair_count_of l x := by
  unfold map_keys pair_count_of
  rw [List.Perm.mem_iff (List.perm_insertionSort _ _), List.mem_dedup, List.mem_flatMap,
    List.countP_pos]
  constructor
  · rintro ⟨p, hp, hx⟩
    refine ⟨p, hp, ?_⟩
    simp only [List.mem_cons, List.mem_singleton, List.not_mem_nil, or_false] at hx
    simp only [Bool.or_eq_true, beq_iff_eq]
    omega
  · rintro ⟨p, hp, hx⟩
    refine ⟨p, hp, ?_⟩
    simp only [Bool.or_eq_true, beq_iff_eq] at hx
    simp only [List.mem_cons, List.mem_singleton, List.not_mem_nil, or_false]
    omega

lemma map_keys_subset (l : List Int) (x : Int) (hx : x ∈ map_keys l) : x ∈ l := by
  unfold map_keys at hx
  rw [List.Perm.mem_iff (List.perm_insertionSort _ _), List.mem_dedup, List.mem_flatMap] at hx
  obtain ⟨p, hp, hxp⟩ := hx
  have hmem := generate_pairs_mem l p hp
  simp only [List.mem_cons, List.mem_singleton, List.not_mem_nil, or_false] at hxp
  rcases hxp with rfl | rfl
  · exact hmem.1
  · exact hmem.2

lemma pair_count_le_length : ∀ (l : List Int), l.Nodup → ∀ x, pair_count_of l x ≤ l.length := by
  intro l
  induction l with
  | nil => intro _ x; simp [pair_count_of, generate_pairs]
  | cons h t ih =>
    intro hnd x
    obtain ⟨hht, hndt⟩ := List.nodup_cons.mp hnd
    unfold pair_count_of
    simp only [generate_pairs]
    rw [List.countP_append, List.countP_map]
    by_cases hx : h = x
    · subst hx
      have hz : List.countP (fun p => p.1 == h || p.2 == h) (generate_pairs t) = 0 := by
        rw [List.countP_eq_zero]
        intro p hp
        have hm := generate_pairs_mem t p hp
        simp only [Bool.or_eq_true, beq_iff_eq, not_or]
        exact ⟨fun h1 => hht (h1 ▸ hm.1), fun h2 => hht (h2 ▸ hm.2)⟩
      have hhead := le_trans
        (List.countP_le_length ((fun p => p.1 == h || p.2 == h) ∘ fun y => mk_power_pair h y))
        (List.length_filter_le (fun y => is_power_of_two (wrap64 (h + y))) t)
      rw [hz]
      simp only [List.length_cons]
      omega
    · have hhead : List.countP ((fun p => p.1 == x || p.2 == x) ∘ fun y => mk_power_pair h y)
          (t.filter (fun y => is_power_of_two (wrap64 (h + y)))) ≤ 1 := by
        have hmono : List.countP ((fun p => p.1 == x || p.2 == x) ∘ fun y => mk_power_pair h y)
            (t.filter (fun y => is_power_of_two (wrap64 (h + y))))
            ≤ List.countP (fun y => y == x) (t.filter (fun y => is_power_of_two (wrap64 (h + y)))) := by
          refine List.countP_mono_left ?_
          intro y hy hp
          simp only [Function.comp, mk_power_pair, Bool.or_eq_true, beq_iff_eq] at hp
          simp only [beq_iff_eq]
          omega
        refine le_trans hmono ?_
        rw [← List.count_eq_countP]
        refine le_trans ((List.filter_sublist t).count_le x) ?_
        exact List.nodup_iff_count_le_one.mp hndt x
      have hrest := ih hndt x
      unfold pair_count_of at hrest
      simp only [List.length_cons]
      omega

lemma is_p2_wrap_add_comm (x y : Int) :
    is_power_of_two (wrap64 (x + y)) = is_power_of_two (wrap64 (y + x)) := by
  rw [Int.add_comm]

lemma count_pairs_perm : ∀ {l l' : List Int}, l.Perm l' → count_pairs l = count_pairs l' := by
  intro l l' h
  induction h with
  | nil => rfl
  | cons a hp ih =>
    simp only [count_pairs, ih, hp.countP_eq]
  | swap a b l =>
    simp only [count_pairs, List.countP_cons]
    have hc : wrap64 (b + a) = wrap64 (a + b) := by rw [Int.add_comm]
    rw [hc]
    ring
  | trans h1 h2 ih1 ih2 => exact ih1.trans ih2

lemma pair_count_eq_partner : ∀ (l : List Int), l.Nodup → ∀ x ∈ l,
    pair_count_of l x = (l.erase x).countP (fun y => is_power_of_two (wrap64 (x + y))) := by
  intro l
  induction l with
  | nil => intro _ x hx; simp at hx
  | cons h t ih =>
    intro hnd x hx
    obtain ⟨hht, hndt⟩ := List.nodup_cons.mp hnd
    unfold pair_count_of
    simp only [generate_pairs]
    rw [List.countP_append, List.countP_map]
    by_cases hhx : h = x
    · subst hhx
      rw [List.erase_cons_head]
      have h1 : List.countP ((fun p => p.1 == h || p.2 == h) ∘ fun y => mk_power_pair h y)
          (t.filter (fun y => is_power_of_two (wrap64 (h + y))))
          = (t.filter (fun y => is_power_of_two (wrap64 (h + y)))).length := by
        rw [List.countP_eq_length]
        intro y hy
        simp only [Function.comp, mk_power_pair, Bool.or_eq_true, beq_iff_eq]
        omega
      have h2 : List.countP (fun p => p.1 == h || p.2 == h) (generate_pairs t) = 0 := by
        rw [List.countP_eq_zero]
        intro p hp
        have hm := generate_pairs_mem t p hp
        simp only [Bool.or_eq_true, beq_iff_eq, not_or]
        exact ⟨fun h1 => hht (h1 ▸ hm.1), fun h2 => hht (h2 ▸ hm.2)⟩
      rw [h1, h2, List.countP_eq_length_filter]
      omega
    · have hxt : x ∈ t := by
        rcases List.mem_cons.mp hx with h1 | h1
        · exact absurd h1.symm hhx
        · exact h1
      rw [List.erase_cons_tail (by simp [hhx])]
      rw [List.countP_cons]
      have hhead : List.countP ((fun p => p.1 == x || p.2 == x) ∘ fun y => mk_power_pair h y)
          (t.filter (fun y => is_power_of_two (wrap64 (h + y))))
          = if is_power_of_two (wrap64 (x + h)) = true then 1 else 0 := by
        have hpointwise : ∀ y ∈ t.filter (fun y => is_power_of_two (wrap64 (h + y))),
            ((((fun p => p.1 == x || p.2 == x) ∘ fun y => mk_power_pair h y) y) = true ↔
              (y == x) = true) := by
          intro y hy
          simp only [Function.comp, mk_power_pair, Bool.or_eq_true, beq_iff_eq]
          omega
        rw [List.countP_congr hpointwise, ← List.count_eq_countP]
        by_cases hf : is_power_of_two (wrap64 (h + x)) = true
        · rw [if_pos (by rw [is_p2_wrap_add_comm x h]; exact hf)]
          exact List.count_eq_one_of_mem (hndt.filter _) (List.mem_filter.mpr ⟨hxt, hf⟩)
        · rw [if_neg (by rw [is_p2_wrap_add_comm x h]; exact hf)]
          rw [List.count_eq_zero]
          intro hmem
          exact hf (List.mem_filter.mp hmem).2
      rw [hhead]
      have hrest := ih hndt x hxt
      unfold pair_count_of at hrest
      rw [hrest]
      ring

lemma count_pairs_erase (l : List Int) (w : Int) (hw : w ∈ l) :
    count_pairs l
      = (l.erase w).countP (fun y => is_power_of_two (wrap64 (w + y))) + count_pairs (l.erase w) := by
  rw [count_pairs_perm (List.perm_cons_erase hw)]
  rfl

lemma count_pairs_append_singleton (l : List Int) (m : Int) :
    count_pairs (l ++ [m])
      = l.countP (fun y => is_power_of_two (wrap64 (m + y))) + count_pairs l := by
  rw [count_pairs_perm (List.perm_append_singleton m l)]
  rfl

/-! ### C5: the removal candidates of the local improvement step -/

/-- C5 (amended): for a set with at least one power pair (and fewer than
a million members, the sentinel of the min-scan), the `worst_numbers`
computed by `improve_number_set` are exactly the members achieving the
minimum pair-participation count among the members that participate in at
least one power pair; members with zero power pairs never appear in the
tally and are never removal candidates.  `prev` is the previous content
of the member vector `worst_numbers`, which the code does not clear. -/
theorem worst_numbers_spec (prev l : List Int) (hnd : l.Nodup)
    (hlen : l.length < 1000000) (hpairs : generate_pairs l ≠ []) :
    ∀ x, x ∈ worst_numbers prev l ↔
      (x ∈ l ∧ 0 < pair_count_of l x ∧
        ∀ y ∈ l, 0 < pair_count_of l y → pair_count_of l x ≤ pair_count_of l y) := by
  intro x
  unfold worst_numbers
  rw [find_worst_mem_iff]
  set entries := (map_keys l).map (fun k => (k, pair_count_of l k)) with hE
  have hcounts : ∀ en ∈ entries, en.2 < 1000000 := by
    intro en hen
    obtain ⟨k, hk, hke⟩ := List.mem_map.mp hen
    rw [← hke]
    exact lt_of_le_of_lt (pair_count_le_length l hnd k) hlen
  have hene : entries ≠ [] := by
    obtain ⟨p, hp⟩ := List.exists_mem_of_ne_nil _ hpairs
    have hkey : p.1 ∈ map_keys l := by
      rw [mem_map_keys_iff]
      unfold pair_count_of
      rw [List.countP_pos]
      exact ⟨p, hp, by simp⟩
    intro h0
    rw [hE, List.map_eq_nil_iff] at h0
    rw [h0] at hkey
    simp at hkey
  constructor
  · rintro (⟨hxprev, hall⟩ | ⟨en, hen, hen1, hen2⟩)
    · exfalso
      obtain ⟨en, hen⟩ := List.exists_mem_of_ne_nil _ hene
      have h1 : (1000000 : Nat) ≤ en.2 := hall en hen
      have h2 := hcounts en hen
      omega
    · obtain ⟨k, hk, hke⟩ := List.mem_map.mp hen
      rw [← hke] at hen1 hen2
      have hk1 : k = x := hen1
      subst hk1
      have hkpc : pair_count_of l k = (find_worst entries (prev, 1000000)).2 := hen2
      refine ⟨map_keys_subset l k hk, (mem_map_keys_iff l k).mp hk, ?_⟩
      intro y hy hypc
      have hykey : y ∈ map_keys l := (mem_map_keys_iff l y).mpr hypc
      have hle : (find_worst entries (prev, 1000000)).2 ≤ pair_count_of l y :=
        find_worst_snd_le_entry entries (prev, 1000000) (y, pair_count_of l y)
          (by rw [hE]; exact List.mem_map.mpr ⟨y, hykey, rfl⟩)
      omega
  · rintro ⟨hxl, hxpc, hmin⟩
    have hxkey : x ∈ map_keys l := (mem_map_keys_iff l x).mpr hxpc
    have hxen : (x, pair_count_of l x) ∈ entries := by
      rw [hE]
      exact List.mem_map.mpr ⟨x, hxkey, rfl⟩
    right
    refine ⟨(x, pair_count_of l x), hxen, rfl, ?_⟩
    have hle : (find_worst entries (prev, 1000000)).2 ≤ pair_count_of l x :=
      find_worst_snd_le_entry entries (prev, 1000000) _ hxen
    have hge : pair_count_of l x ≤ (find_worst entries (prev, 1000000)).2 := by
      rcases find_worst_snd_cases entries (prev, 1000000) with hc | ⟨en, hen, heq⟩
      · have hc2 : (find_worst entries (prev, 1000000)).2 = 1000000 := hc
        have := pair_count_le_length l hnd x
        omega
      · obtain ⟨k, hk, hke⟩ := List.mem_map.mp hen
        have hkl : k ∈ l := map_keys_subset l k hk
        have hkpc : 0 < pair_count_of l k := (mem_map_keys_iff l k).mp hk
        have hmk := hmin k hkl hkpc
        rw [← hke] at heq
        have heq2 : (find_worst entries (prev, 1000000)).2 = pair_count_of l k := heq
        omega
    omega

set_option maxRecDepth 100000 in
/-- C5 counterexample: in the set `{1, 3, 100}` the member 100
participates in zero power pairs, hence has the strictly smallest
participation count; yet it is not a removal candidate, while the member
1 (count 1) is.  So the candidates are not the argmin over every member. -/
theorem worst_numbers_miss_zero_pair_member :
    100 ∉ worst_numbers [] [1, 3, 100] ∧
    pair_count_of [1, 3, 100] 100 < pair_count_of [1, 3, 100] 1 ∧
    1 ∈ worst_numbers [] [1, 3, 100] := by
  decide

set_option maxRecDepth 100000 in
/-- C5 witness: the amended characterization applied at `{1, 3, 100}`:
1 is a worst candidate there. -/
theorem worst_numbers_spec_w : 1 ∈ worst_numbers [] [1, 3, 100] :=
  (worst_numbers_spec [] [1, 3, 100] (by decide) (by decide) (by decide) 1).mpr (by decide)

/-! ### C6: pushed sets strictly improve -/

/-- C6: every set pushed by `improve_number_set` (on a duplicate-free set
of fewer than a million members, the min-scan sentinel) is obtained from
the popped set by erasing one member and inserting one non-member, and
its `count_pairs` strictly exceeds that of the popped set. -/
theorem improve_step_strictly_improves (prev l : List Int) (hnd : l.Nodup)
    (hlen : l.length < 1000000) :
    ∀ nl ∈ improve_step prev l,
      count_pairs l < count_pairs nl ∧ ∃ w ∈ l, ∃ m, m ∉ l ∧ nl = (l.erase w) ++ [m] := by
  intro nl hnl
  unfold improve_step at hnl
  split at hnl
  next e hfind =>
    simp only [List.mem_singleton] at hnl
    subst hnl
    have hpred := List.find?_some hfind
    have hmem := List.mem_of_find?_eq_some hfind
    simp only [decide_eq_true_eq] at hpred
    have hcand : e.1 ∉ l ∧ e.2 ∈ worst_numbers prev l := by
      unfold improve_candidates at hmem
      rw [List.mem_flatMap] at hmem
      obtain ⟨p, hp, hmem2⟩ := hmem
      rw [List.mem_flatMap] at hmem2
      obtain ⟨num, hnum, hmem3⟩ := hmem2
      by_cases hc : l.contains (wrap64 (p - num))
      · rw [if_pos hc] at hmem3
        simp at hmem3
      · rw [if_neg hc] at hmem3
        obtain ⟨w, hwmem, hwe⟩ := List.mem_map.mp hmem3
        subst hwe
        constructor
        · intro hmem4
          apply hc
          simpa using hmem4
        · exact hwmem
    obtain ⟨hm_notin, hw_worst⟩ := hcand
    unfold worst_numbers at hw_worst
    have hworst := (find_worst_mem_iff _ _ _).mp hw_worst
    have hmpc : maybe_pair_count l e.2 e.1 ≤ l.length := List.countP_le_length _
    rcases hworst with ⟨hprev, hall⟩ | ⟨en, hen, hen1, hen2⟩
    · exfalso
      have hWacc : worst_pair_count prev l = 1000000 := by
        unfold worst_pair_count
        exact (find_worst_snd_eq_acc_iff _ _).mpr hall
      omega
    · obtain ⟨k, hk, hke⟩ := List.mem_map.mp hen
      rw [← hke] at hen1 hen2
      have hk1 : k = e.2 := hen1
      rw [← hk1] at hpred ⊢
      have hk2 : pair_count_of l k = worst_pair_count prev l := hen2
      have hwl : k ∈ l := map_keys_subset l k hk
      have hdecomp := count_pairs_erase l k hwl
      have hnew := count_pairs_append_singleton (l.erase k) e.1
      have hmaybe : maybe_pair_count l k e.1
          = (l.erase k).countP (fun y => is_power_of_two (wrap64 (e.1 + y))) := by
        unfold maybe_pair_count
        rw [List.Nodup.erase_eq_filter hnd k, List.countP_filter]
        refine List.countP_congr ?_
        intro y hy
        simp only [Bool.and_eq_true, bne_iff_ne, ne_eq]
        constructor
        · rintro ⟨h1, h2⟩
          refine ⟨?_, h1⟩
          rw [is_p2_wrap_add_comm]
          exact h2
        · rintro ⟨h1, h2⟩
          refine ⟨h2, ?_⟩
          rw [is_p2_wrap_add_comm]
          exact h1
      have hpartner := pair_count_eq_partner l hnd k hwl
      refine ⟨?_, k, hwl, e.1, hm_notin, rfl⟩
      rw [hdecomp, hnew, ← hmaybe]
      omega
  next hfind => simp at hnl

set_option maxRecDepth 100000 in
/-- C6 witness: on the set `{1, 3, 5}` the improvement step finds and
pushes the strictly better swap replacing 1 by -1 (set `{3, 5, -1}`). -/
theorem improve_step_strictly_improves_w :
    count_pairs [1, 3, 5] < count_pairs [3, 5, -1] := by
  have h := improve_step_strictly_improves [] [1, 3, 5] (by decide) (by decide)
  exact (h [3, 5, -1] (by decide)).1

/-! ### C10: `simplify()` and `count_pairs` -/

/-- The `int64_t` value range. -/
def int64_range (x : Int) : Prop := -(2 ^ 63) ≤ x ∧ x < 2 ^ 63

/-- The pair sums on which the bit trick misfires across halving: a sum
`2^k - 2^64` (for `k < 64`) overflows to the single-bit 64-bit pattern
`2^k`, so `is_power_of_two` accepts it, while its exact half
`2^(k-1) - 2^63` has a two-bit pattern and is rejected. -/
def bad_sum (s : Int) : Prop := ∃ k : Nat, k < 64 ∧ s = 2 ^ k - 2 ^ 64

lemma int_two_pow_lt (j k : Nat) : (2 : Int) ^ j < 2 ^ k ↔ j < k := by
  constructor
  · intro h
    by_contra hge
    have h2 : (2 : Int) ^ k ≤ 2 ^ j := pow_le_pow_right₀ (by norm_num) (by omega)
    omega
  · intro h
    exact pow_lt_pow_right₀ (by norm_num) h

lemma is_p2_half_sum (u s : Int) (hs : s = 2 * u) (hlo : -(2 ^ 64) < s) (hhi : s < 2 ^ 64)
    (hbad : ¬ bad_sum s) :
    is_power_of_two (wrap64 u) = is_power_of_two (wrap64 s) := by
  have hs63 : s ≠ -(2 ^ 63) := by
    intro h
    exact hbad ⟨63, by norm_num, by rw [h]; norm_num⟩
  have hwu : wrap64 u = u := by unfold wrap64; omega
  rw [Bool.eq_iff_iff, hwu]
  rw [is_p2_char u (by omega) (by omega)]
  by_cases hA : s < -(2 ^ 63)
  · have hws : wrap64 s = s + 2 ^ 64 := by unfold wrap64; omega
    rw [hws, is_p2_char (s + 2 ^ 64) (by omega) (by omega)]
    constructor
    · rintro (⟨k, hk⟩ | hk)
      · exfalso
        have hpos : (0 : Int) < 2 ^ k := by positivity
        omega
      · exfalso; omega
    · rintro (⟨k, hk⟩ | hk)
      · exfalso
        apply hbad
        refine ⟨k, ?_, by omega⟩
        have hklt : (2 : Int) ^ k < 2 ^ 63 := by omega
        have := (int_two_pow_lt k 63).mp hklt
        omega
      · exfalso; omega
  · by_cases hC : 2 ^ 63 ≤ s
    · have hws : wrap64 s = s - 2 ^ 64 := by unfold wrap64; omega
      rw [hws, is_p2_char (s - 2 ^ 64) (by omega) (by omega)]
      constructor
      · rintro (⟨k, hk⟩ | hk)
        · right
          have h1 : (2 : Int) ^ k < 2 ^ 63 := by omega
          have h2 : ¬ ((2 : Int) ^ k < 2 ^ 62) := by omega
          have hk63 := (int_two_pow_lt k 63).mp h1
          have hk62 : ¬ (k < 62) := fun hh => h2 ((int_two_pow_lt k 62).mpr hh)
          have hkeq : k = 62 := by omega
          subst hkeq
          have h62 : (2 : Int) ^ 62 = 4611686018427387904 := by norm_num
          omega
        · exfalso; omega
      · rintro (⟨k, hk⟩ | hk)
        · exfalso
          have hpos : (0 : Int) < 2 ^ k := by positivity
          omega
        · left
          refine ⟨62, ?_⟩
          have h62 : (2 : Int) ^ 62 = 4611686018427387904 := by norm_num
          omega
    · have hws : wrap64 s = s := by unfold wrap64; omega
      rw [hws, is_p2_char s (by omega) (by omega)]
      constructor
      · rintro (⟨k, hk⟩ | hk)
        · exact Or.inl ⟨k + 1, by rw [pow_succ]; omega⟩
        · exfalso; omega
      · rintro (⟨k, hk⟩ | hk)
        · rcases k with _ | k
          · exfalso
            simp at hk
            omega
          · left
            refine ⟨k, ?_⟩
            rw [pow_succ] at hk
            omega
        · exfalso; omega

lemma count_pairs_map_halve : ∀ (l : List Int), l.Nodup →
    (∀ x ∈ l, int64_range x) → (∀ x ∈ l, Int.tmod x 2 = 0) →
    (∀ x ∈ l, ∀ y ∈ l, x ≠ y → ¬ bad_sum (x + y)) →
    count_pairs (l.map (fun x => Int.tdiv x 2)) = count_pairs l := by
  intro l
  induction l with
  | nil => intro _ _ _ _; rfl
  | cons a t ih =>
    intro hnd hr he hb
    obtain ⟨hat, hndt⟩ := List.nodup_cons.mp hnd
    simp only [List.map_cons, count_pairs]
    rw [List.countP_map]
    rw [ih hndt (fun x hx => hr x (List.mem_cons_of_mem _ hx))
      (fun x hx => he x (List.mem_cons_of_mem _ hx))
      (fun x hx y hy => hb x (List.mem_cons_of_mem _ hx) y (List.mem_cons_of_mem _ hy))]
    congr 1
    refine List.countP_congr ?_
    intro y hy
    simp only [Function.comp]
    obtain ⟨har1, har2⟩ := hr a (List.mem_cons_self a t)
    obtain ⟨hyr1, hyr2⟩ := hr y (List.mem_cons_of_mem _ hy)
    have hae := he a (List.mem_cons_self a t)
    have hye := he y (List.mem_cons_of_mem _ hy)
    have hane : a ≠ y := fun h => hat (h ▸ hy)
    have hbad := hb a (List.mem_cons_self a t) y (List.mem_cons_of_mem _ hy) hane
    have ha2 := Int.tmod_add_tdiv a 2
    have hy2 := Int.tmod_add_tdiv y 2
    rw [is_p2_half_sum (Int.tdiv a 2 + Int.tdiv y 2) (a + y)
      (by omega) (by omega) (by omega) hbad]

lemma halve_mem (l : List Int) (u : Int) :
    u ∈ halve l ↔ ∃ x ∈ l, Int.tdiv x 2 = u := by
  unfold halve
  rw [List.mem_dedup, List.mem_map]

lemma all_even_tmod (l : List Int) (he : all_even l = true) :
    ∀ x ∈ l, Int.tmod x 2 = 0 := by
  simp only [all_even, List.all_eq_true, beq_iff_eq] at he
  exact he

lemma count_pairs_halve_eq (l : List Int) (hnd : l.Nodup)
    (hr : ∀ x ∈ l, int64_range x) (he : all_even l = true)
    (hb : ∀ x ∈ l, ∀ y ∈ l, x ≠ y → ¬ bad_sum (x + y)) :
    count_pairs (halve l) = count_pairs l := by
  have he' := all_even_tmod l he
  have hinj : ∀ x ∈ l, ∀ y ∈ l, Int.tdiv x 2 = Int.tdiv y 2 → x = y := by
    intro x hx y hy hxy
    have hx2 := Int.tmod_add_tdiv x 2
    have hy2 := Int.tmod_add_tdiv y 2
    have hex := he' x hx
    have hey := he' y hy
    omega
  have hdedup : halve l = l.map (fun x => Int.tdiv x 2) := by
    unfold halve
    exact List.dedup_eq_self.mpr (List.Nodup.map_on hinj hnd)
  rw [hdedup]
  exact count_pairs_map_halve l hnd hr he' hb

lemma halve_range (l : List Int) (he : all_even l = true)
    (hr : ∀ x ∈ l, int64_range x) : ∀ u ∈ halve l, int64_range u := by
  intro u hu
  obtain ⟨x, hx, hxu⟩ := (halve_mem l u).mp hu
  obtain ⟨h1, h2⟩ := hr x hx
  have hx2 := Int.tmod_add_tdiv x 2
  have hex := all_even_tmod l he x hx
  unfold int64_range
  omega

lemma halve_not_bad (l : List Int) (he : all_even l = true)
    (hr : ∀ x ∈ l, int64_range x) :
    ∀ u ∈ halve l, ∀ v ∈ halve l, u ≠ v → ¬ bad_sum (u + v) := by
  intro u hu v hv huv
  rintro ⟨k, hk64, hkeq⟩
  obtain ⟨x, hx, hxu⟩ := (halve_mem l u).mp hu
  obtain ⟨y, hy, hyv⟩ := (halve_mem l v).mp hv
  obtain ⟨hx1, hx2⟩ := hr x hx
  obtain ⟨hy1, hy2⟩ := hr y hy
  have hxm := Int.tmod_add_tdiv x 2
  have hym := Int.tmod_add_tdiv y 2
  have hex := all_even_tmod l he x hx
  have hey := all_even_tmod l he y hy
  have hk63 : (2 : Int) ^ k ≤ 2 ^ 63 := by
    rcases Nat.lt_or_ge k 63 with h | h
    · exact le_of_lt ((int_two_pow_lt k 63).mpr h)
    · have hke : k = 63 := by omega
      subst hke
      exact le_refl _
  omega

lemma simplifyFuel_preserves : ∀ (f : Nat) (l l' : List Int), l.Nodup →
    (∀ x ∈ l, int64_range x) →
    (∀ x ∈ l, ∀ y ∈ l, x ≠ y → ¬ bad_sum (x + y)) →
    simplifyFuel f l = some l' → count_pairs l' = count_pairs l := by
  intro f
  induction f with
  | zero => intro l l' _ _ _ h; simp [simplifyFuel] at h
  | succ f ih =>
    intro l l' hnd hr hb hf
    rw [simplifyFuel] at hf
    split_ifs at hf with he
    · have hcount := count_pairs_halve_eq l hnd hr he hb
      have hrec := ih (halve l) l' (by unfold halve; exact List.nodup_dedup _)
        (halve_range l he hr) (halve_not_bad l he hr) hf
      omega
    · injection hf with hf2
      rw [← hf2]

/-- C10 (amended): `simplify()` never changes `count_pairs()` for every
duplicate-free NumberSet of `int64_t` values on which it terminates,
provided no two distinct members sum to `2^k - 2^64` for any `k < 64`
(the sums whose 64-bit overflow pattern is a single bit).  On such a sum
the bit trick counts a pair before halving but not after, see the
counterexample. -/
theorem simplify_preserves_count_pairs (l : List Int) (hnd : l.Nodup)
    (hr : ∀ x ∈ l, int64_range x)
    (hb : ∀ x ∈ l, ∀ y ∈ l, x ≠ y → ¬ bad_sum (x + y))
    (f : Nat) (l' : List Int) (hf : simplifyFuel f l = some l') :
    count_pairs l' = count_pairs l :=
  simplifyFuel_preserves f l l' hnd hr hb hf

set_option maxRecDepth 100000 in
/-- C10 counterexample: on the set `{-2^62-2, -2^62+2}` the single pair
sums to `-2^63`, which the bit trick accepts as a power of two; after one
halving the set is `{-2^61-1, -2^61+1}` whose pair sums to `-2^62`,
rejected.  So `simplify()` terminates but changes `count_pairs` from 1
to 0. -/
theorem simplify_changes_count_pairs :
    simplifyFuel 2 [-(2 ^ 62) - 2, -(2 ^ 62) + 2] = some [-(2 ^ 61) - 1, -(2 ^ 61) + 1] ∧
    count_pairs [-(2 ^ 62) - 2, -(2 ^ 62) + 2] = 1 ∧
    count_pairs [-(2 ^ 61) - 1, -(2 ^ 61) + 1] = 0 := by
  refine ⟨by decide, by decide, by decide⟩

set_option maxRecDepth 100000 in
/-- C10 witness: the amended theorem applied to the concrete set
`{8, 24}` (the spec's own example), fully simplified to `{1, 3}`. -/
theorem simplify_preserves_count_pairs_w :
    count_pairs [(1 : Int), 3] = count_pairs [8, 24] :=
  simplify_preserves_count_pairs [8, 24] (by decide)
    (by intro x hx; fin_cases hx <;> exact ⟨by norm_num, by norm_num⟩)
    (by
      intro x hx y hy hne
      rintro ⟨k, hk64, hkeq⟩
      have hk63 : (2 : Int) ^ k ≤ 2 ^ 63 := by
        rcases Nat.lt_or_ge k 63 with h | h
        · exact le_of_lt ((int_two_pow_lt k 63).mpr h)
        · have hke : k = 63 := by omega
          subst hke
          exact le_refl _
      fin_cases hx <;> fin_cases hy <;> omega)
    4 [1, 3] (by decide)

/-! ### C1: the combination enumerator -/

lemma usub64_eq (m n : Nat) (h1 : m ≤ n) (h2 : n < 2 ^ 64) : usub64 n m = n - m := by
  unfold usub64
  omega

lemma advance_cons_some (n : Nat) {rest r : List Nat} (x : Nat)
    (h : advanceAux n rest = some r) : advanceAux n (x :: rest) = some (x :: r) := by
  simp [advanceAux, h]

lemma advance_cons_none (n : Nat) {rest : List Nat} (x : Nat)
    (h : advanceAux n rest = none) :
    advanceAux n (x :: rest)
      = if x + 1 < usub64 n rest.length then some ((x + 1) :: List.range' (x + 2) rest.length)
        else none := by
  simp [advanceAux, h]

lemma combsFrom_zero (n a : Nat) : combsFrom n a 0 = [[]] := by
  rw [combsFrom]

lemma combsFrom_succ_pos (n a m : Nat) (h : a + m < n) :
    combsFrom n a (m + 1)
      = ((combsFrom n (a + 1) m).map (fun s => a :: s)) ++ combsFrom n (a + 1) (m + 1) := by
  rw [combsFrom]
  rw [dif_pos h]

lemma combsFrom_succ_neg {n a m : Nat} (h : ¬ (a + m < n)) : combsFrom n a (m + 1) = [] := by
  rw [combsFrom]
  rw [dif_neg h]

lemma increasing_length_le (n : Nat) : ∀ (s : List Nat) (a : Nat), s.Pairwise (· < ·) →
    (∀ i ∈ s, a ≤ i ∧ i < n) → s.length ≤ n - a := by
  intro s
  induction s with
  | nil => intro a _ _; simp
  | cons x t ih =>
    intro a hpw hb
    obtain ⟨hx, hpt⟩ := List.pairwise_cons.mp hpw
    have hxb := hb x (List.mem_cons_self x t)
    have ht := ih (x + 1) hpt
      (fun i hi => ⟨hx i hi, (hb i (List.mem_cons_of_mem _ hi)).2⟩)
    simp only [List.length_cons]
    omega

lemma combsFrom_mem (n : Nat) : ∀ (d a m : Nat), n - a ≤ d → ∀ s : List Nat,
    (s ∈ combsFrom n a m ↔
      s.length = m ∧ s.Pairwise (· < ·) ∧ ∀ i ∈ s, a ≤ i ∧ i < n) := by
  intro d
  induction d with
  | zero =>
    intro a m hd s
    match m with
    | 0 =>
      rw [combsFrom_zero]
      simp only [List.mem_singleton]
      constructor
      · rintro rfl
        exact ⟨rfl, List.Pairwise.nil, by simp⟩
      · rintro ⟨hlen, -, -⟩
        exact List.length_eq_zero.mp hlen
    | m + 1 =>
      rw [combsFrom_succ_neg (by omega)]
      simp only [List.not_mem_nil, false_iff]
      rintro ⟨hlen, hpw, hbd⟩
      have := increasing_length_le n s a hpw hbd
      omega
  | succ d ih =>
    intro a m hd s
    match m with
    | 0 =>
      rw [combsFrom_zero]
      simp only [List.mem_singleton]
      constructor
      · rintro rfl
        exact ⟨rfl, List.Pairwise.nil, by simp⟩
      · rintro ⟨hlen, -, -⟩
        exact List.length_eq_zero.mp hlen
    | m + 1 =>
      by_cases hg : a + m < n
      · rw [combsFrom_succ_pos n a m hg]
        simp only [List.mem_append, List.mem_map]
        constructor
        · rintro (⟨s', hs', rfl⟩ | hs)
          · obtain ⟨hlen, hpw, hbd⟩ := (ih (a + 1) m (by omega) s').mp hs'
            refine ⟨by simp [hlen], ?_, ?_⟩
            · rw [List.pairwise_cons]
              exact ⟨fun i hi => by have := hbd i hi; omega, hpw⟩
            · intro i hi
              rcases List.mem_cons.mp hi with rfl | hi2
              · omega
              · have := hbd i hi2
                omega
          · obtain ⟨hlen, hpw, hbd⟩ := (ih (a + 1) (m + 1) (by omega) s).mp hs
            refine ⟨hlen, hpw, fun i hi => ?_⟩
            have := hbd i hi
            omega
        · rintro ⟨hlen, hpw, hbd⟩
          cases s with
          | nil => simp at hlen
          | cons x s' =>
            obtain ⟨hx, hps⟩ := List.pairwise_cons.mp hpw
            have hxb := hbd x (List.mem_cons_self x s')
            by_cases hxa : x = a
            · subst hxa
              left
              refine ⟨s', ?_, rfl⟩
              refine (ih (x + 1) m (by omega) s').mpr ⟨by simpa using hlen, hps, ?_⟩
              intro i hi
              have h1 := hx i hi
              have h2 := (hbd i (List.mem_cons_of_mem _ hi)).2
              omega
            · right
              refine (ih (a + 1) (m + 1) (by omega) (x :: s')).mpr ⟨hlen, hpw, ?_⟩
              intro i hi
              rcases List.mem_cons.mp hi with rfl | hi2
              · omega
              · have h1 := hx i hi2
                have h2 := (hbd i (List.mem_cons_of_mem _ hi2)).2
                omega
      · rw [combsFrom_succ_neg hg]
        simp only [List.not_mem_nil, false_iff]
        rintro ⟨hlen, hpw, hbd⟩
        have := increasing_length_le n s a hpw hbd
        omega

lemma combsFrom_ne_nil (n : Nat) : ∀ (m a : Nat), a + m ≤ n → combsFrom n a m ≠ [] := by
  intro m
  induction m with
  | zero =>
    intro a _
    rw [combsFrom_zero]
    simp
  | succ m ih =>
    intro a h
    rw [combsFrom_succ_pos n a m (by omega)]
    intro hc
    rcases List.append_eq_nil.mp hc with ⟨h1, -⟩
    exact ih (a + 1) (by omega) (List.map_eq_nil_iff.mp h1)

lemma combsFrom_head (n : Nat) : ∀ (m a : Nat), a + m ≤ n →
    (combsFrom n a m).head? = some (List.range' a m) := by
  intro m
  induction m with
  | zero =>
    intro a _
    rw [combsFrom_zero]
    rfl
  | succ m ih =>
    intro a h
    rw [combsFrom_succ_pos n a m (by omega), List.head?_append, List.head?_map,
      ih (a + 1) (by omega), List.range'_succ]
    rfl

lemma combsFrom_getLast (n : Nat) : ∀ (d a m : Nat), n - a ≤ d → a + m ≤ n →
    (combsFrom n a m).getLast? = some (List.range' (n - m) m) := by
  intro d
  induction d with
  | zero =>
    intro a m hd h
    have hm : m = 0 := by omega
    subst hm
    rw [combsFrom_zero]
    rfl
  | succ d ih =>
    intro a m hd h
    match m with
    | 0 => rw [combsFrom_zero]; rfl
    | m + 1 =>
      rw [combsFrom_succ_pos n a m (by omega)]
      by_cases hY : a + 1 + (m + 1) ≤ n
      · rw [List.getLast?_append, ih (a + 1) (m + 1) (by omega) hY]
        rfl
      · have hYnil : combsFrom n (a + 1) (m + 1) = [] := combsFrom_succ_neg (by omega)
        rw [hYnil, List.append_nil, List.getLast?_map, ih (a + 1) m (by omega) (by omega)]
        have ha : a = n - m - 1 := by omega
        have hr : List.range' (n - (m + 1)) (m + 1) = (n - m - 1) :: List.range' (n - m) m := by
          have h1 : n - (m + 1) = n - m - 1 := by omega
          have h2 : n - m - 1 + 1 = n - m := by omega
          rw [h1, List.range'_succ, h2]
        rw [hr, ← ha]
        rfl

lemma advance_range_none (n : Nat) (hn : n < 2 ^ 64) : ∀ (m : Nat), m ≤ n →
    advanceAux n (List.range' (n - m) m) = none := by
  intro m
  induction m with
  | zero => intro _; rfl
  | succ m ih =>
    intro h
    have h1 : n - (m + 1) + 1 = n - m := by omega
    rw [List.range'_succ, h1,
      advance_cons_none n _ (ih (by omega)),
      List.length_range', usub64_eq m n (by omega) hn, if_neg (by omega)]

lemma combsFrom_chain (n : Nat) (hn : n < 2 ^ 64) : ∀ (d a m : Nat), n - a ≤ d →
    List.Chain' (fun t t2 => advanceAux n t = some t2) (combsFrom n a m) := by
  intro d
  induction d with
  | zero =>
    intro a m hd
    match m with
    | 0 => rw [combsFrom_zero]; exact List.chain'_singleton _
    | m + 1 =>
      rw [combsFrom_succ_neg (by omega)]
      exact List.chain'_nil
  | succ d ih =>
    intro a m hd
    match m with
    | 0 => rw [combsFrom_zero]; exact List.chain'_singleton _
    | m + 1 =>
      by_cases hg : a + m < n
      · rw [combsFrom_succ_pos n a m hg, List.chain'_append]
        refine ⟨?_, ih (a + 1) (m + 1) (by omega), ?_⟩
        · rw [List.chain'_map]
          refine List.Chain'.imp ?_ (ih (a + 1) m (by omega))
          intro t t2 ht
          exact advance_cons_some n a ht
        · intro x hx y hy
          have hYne : combsFrom n (a + 1) (m + 1) ≠ [] := by
            intro hnil
            rw [hnil] at hy
            simp at hy
          have hYb : a + 1 + (m + 1) ≤ n := by
            by_contra hc
            exact hYne (combsFrom_succ_neg (by omega))
          rw [List.getLast?_map, combsFrom_getLast n (n - (a + 1)) (a + 1) m (le_refl _)
            (by omega)] at hx
          rw [combsFrom_head n (m + 1) (a + 1) (by omega)] at hy
          simp only [Option.map_some', Option.mem_def, Option.some.injEq] at hx hy
          subst hx
          subst hy
          rw [advance_cons_none n _ (advance_range_none n hn m (by omega)),
            List.length_range', usub64_eq m n (by omega) hn, if_pos (by omega),
            List.range'_succ]
      · rw [combsFrom_succ_neg hg]
        exact List.chain'_nil

lemma combsFrom_pairwise (n : Nat) : ∀ (d a m : Nat), n - a ≤ d →
    (combsFrom n a m).Pairwise (List.Lex (· < ·)) := by
  intro d
  induction d with
  | zero =>
    intro a m hd
    match m with
    | 0 => rw [combsFrom_zero]; exact List.pairwise_singleton _ _
    | m + 1 =>
      rw [combsFrom_succ_neg (by omega)]
      exact List.Pairwise.nil
  | succ d ih =>
    intro a m hd
    match m with
    | 0 => rw [combsFrom_zero]; exact List.pairwise_singleton _ _
    | m + 1 =>
      by_cases hg : a + m < n
      · rw [combsFrom_succ_pos n a m hg, List.pairwise_append]
        refine ⟨?_, ih (a + 1) (m + 1) (by omega), ?_⟩
        · rw [List.pairwise_map]
          refine List.Pairwise.imp ?_ (ih (a + 1) m (by omega))
          intro s t h
          exact List.Lex.cons h
        · intro u hu v hv
          obtain ⟨s', hs', rfl⟩ := List.mem_map.mp hu
          obtain ⟨hvlen, hvpw, hvbd⟩ :=
            (combsFrom_mem n (n - (a + 1)) (a + 1) (m + 1) (le_refl _) v).mp hv
          cases v with
          | nil => simp at hvlen
          | cons b v' =>
            have hb := hvbd b (List.mem_cons_self b v')
            exact List.Lex.rel (by omega)
      · rw [combsFrom_succ_neg hg]
        exact List.Pairwise.nil

lemma combsFrom_length (n : Nat) : ∀ (d a m : Nat), n - a ≤ d →
    (combsFrom n a m).length ≤ (n + 1 - a) ^ m := by
  intro d
  induction d with
  | zero =>
    intro a m hd
    match m with
    | 0 => rw [combsFrom_zero]; simp
    | m + 1 =>
      rw [combsFrom_succ_neg (by omega)]
      simp
  | succ d ih =>
    intro a m hd
    match m with
    | 0 => rw [combsFrom_zero]; simp
    | m + 1 =>
      by_cases hg : a + m < n
      · rw [combsFrom_succ_pos n a m hg, List.length_append, List.length_map]
        have h1 := ih (a + 1) m (by omega)
        have h2 := ih (a + 1) (m + 1) (by omega)
        have hb : n + 1 - (a + 1) = n - a := by omega
        rw [hb] at h1 h2
        have hle : (n - a) ^ m ≤ (n + 1 - a) ^ m := Nat.pow_le_pow_left (by omega) m
        calc (combsFrom n (a + 1) m).length + (combsFrom n (a + 1) (m + 1)).length
            ≤ (n - a) ^ m + (n - a) ^ (m + 1) := Nat.add_le_add h1 h2
          _ = (n - a) ^ m * (1 + (n - a)) := by rw [pow_succ]; ring
          _ ≤ (n + 1 - a) ^ m * (1 + (n - a)) := Nat.mul_le_mul hle (le_refl _)
          _ = (n + 1 - a) ^ (m + 1) := by
              rw [pow_succ]
              have hx : 1 + (n - a) = n + 1 - a := by omega
              rw [hx]
      · rw [combsFrom_succ_neg hg]
        simp

lemma visitsFuel_eq_of_chain (n : Nat) : ∀ (ss : List (List Nat)) (s : List Nat) (f : Nat),
    List.Chain' (fun t t2 => advanceAux n t = some t2) ss →
    (∀ t, ss.getLast? = some t → advanceAux n t = none) →
    ss.head? = some s → ss.length ≤ f →
    visitsFuel n f s = ss := by
  intro ss
  induction ss with
  | nil => intro s f _ _ hh _; simp at hh
  | cons t ss' ih =>
    intro s f hch hlast hh hlen
    simp only [List.head?_cons, Option.some.injEq] at hh
    subst hh
    match f with
    | 0 => simp at hlen
    | f + 1 =>
      cases ss' with
      | nil =>
        have hnone := hlast t rfl
        simp [visitsFuel, hnone]
      | cons t2 ss'' =>
        obtain ⟨hstep, hch'⟩ := List.chain'_cons.mp hch
        have hrec := ih t2 f hch'
          (fun u hu => hlast u (by rw [List.getLast?_cons_cons]; exact hu))
          rfl (by simpa using hlen)
        simp [visitsFuel, hstep, hrec]

/-- The first index of the mutable suffix of the index vector: `0` with no
preset indices, one past the last preset index otherwise. -/
def suffix_start (preset : List Nat) : Nat :=
  match preset.getLast? with
  | none => 0
  | some x => x + 1

lemma suffix_start_of_getLast {preset : List Nat} {x : Nat} (h : preset.getLast? = some x) :
    suffix_start preset = x + 1 := by
  unfold suffix_start
  rw [h]

lemma suffix_start_of_none {preset : List Nat} (h : preset.getLast? = none) :
    suffix_start preset = 0 := by
  unfold suffix_start
  rw [h]

lemma init_suffix_eq (k : Nat) (preset : List Nat) :
    init_suffix k preset = List.range' (suffix_start preset) (k - preset.length) := by
  unfold init_suffix suffix_start
  cases h : preset.getLast? with
  | none =>
    have hnil : preset = [] := List.getLast?_eq_none_iff.mp h
    subst hnil
    rfl
  | some x => rfl

lemma pairwise_le_getLast : ∀ (p : List Nat) (x : Nat), p.Pairwise (· < ·) →
    p.getLast? = some x → ∀ i ∈ p, i ≤ x := by
  intro p
  induction p with
  | nil => intro x _ h; simp at h
  | cons h0 tl ih =>
    intro x hpw hlast i hi
    obtain ⟨hh, hpt⟩ := List.pairwise_cons.mp hpw
    cases tl with
    | nil =>
      simp at hlast hi
      omega
    | cons t1 tl' =>
      rw [List.getLast?_cons_cons] at hlast
      have hxm : x ∈ t1 :: tl' := by
        obtain ⟨hne, rfl⟩ :=
          List.mem_getLast?_eq_getLast (l := t1 :: tl') (x := x) (by rw [hlast]; rfl)
        exact List.getLast_mem hne
      rcases List.mem_cons.mp hi with rfl | hi2
      · exact le_of_lt (hh x hxm)
      · exact ih x hpt hlast i hi2

lemma lex_append_left : ∀ (p : List Nat) {s t : List Nat},
    List.Lex (· < ·) s t → List.Lex (· < ·) (p ++ s) (p ++ t) := by
  intro p
  induction p with
  | nil => intro s t h; exact h
  | cons a p' ih => intro s t h; exact List.Lex.cons (ih h)

/-- C1: for `0 < k ≤ n` triplets and a valid strictly increasing preset
index vector (one that extends to at least one `k`-combination),
`combiner_t::combine()` visits exactly the strictly increasing `k`-tuples
of indices below `n` that extend the preset, each exactly once, in
strictly increasing lexicographic order (the visit list is pairwise
lexicographically ordered, so there are no repeats). -/
theorem combine_enumerates (n k : Nat) (preset : List Nat)
    (hn : n < 2 ^ 64) (hk : 0 < k) (hkn : k ≤ n) (hL : preset.length ≤ k)
    (hinc : preset.Pairwise (· < ·))
    (hext : ∀ x, preset.getLast? = some x → x + 1 + (k - preset.length) ≤ n) :
    (combineVisits n k preset).Pairwise (List.Lex (· < ·)) ∧
    ∀ t, (t ∈ combineVisits n k preset ↔
      (t.length = k ∧ t.Pairwise (· < ·) ∧ (∀ i ∈ t, i < n) ∧ ∃ s, t = preset ++ s)) := by
  have hstm : suffix_start preset + (k - preset.length) ≤ n := by
    cases hg : preset.getLast? with
    | none =>
      have hnil : preset = [] := List.getLast?_eq_none_iff.mp hg
      rw [suffix_start_of_none hg]
      subst hnil
      simpa using hkn
    | some x =>
      rw [suffix_start_of_getLast hg]
      have := hext x hg
      omega
  have hpre_lt : ∀ i ∈ preset, i < suffix_start preset := by
    intro i hi
    cases hg : preset.getLast? with
    | none =>
      have hnil : preset = [] := List.getLast?_eq_none_iff.mp hg
      subst hnil
      simp at hi
    | some x =>
      rw [suffix_start_of_getLast hg]
      have := pairwise_le_getLast preset x hinc hg i hi
      omega
  have hvisits : combineVisits n k preset
      = (combsFrom n (suffix_start preset) (k - preset.length)).map (fun s => preset ++ s) := by
    unfold combineVisits
    rw [if_neg (by omega)]
    congr 1
    rw [init_suffix_eq]
    refine visitsFuel_eq_of_chain n _ _ _
      (combsFrom_chain n hn (n - suffix_start preset) (suffix_start preset) _ (le_refl _))
      ?_ ?_ ?_
    · intro t ht
      rw [combsFrom_getLast n (n - suffix_start preset) (suffix_start preset) _
        (le_refl _) hstm] at ht
      simp only [Option.some.injEq] at ht
      subst ht
      exact advance_range_none n hn _ (by omega)
    · exact combsFrom_head n _ _ hstm
    · have h1 := combsFrom_length n (n - suffix_start preset) (suffix_start preset)
        (k - preset.length) (le_refl _)
      have h2 : (n + 1 - suffix_start preset) ^ (k - preset.length)
          ≤ (n + 1) ^ (k - preset.length) := Nat.pow_le_pow_left (by omega) _
      have h3 : (n + 1) ^ (k - preset.length) ≤ (n + 1) ^ k :=
        Nat.pow_le_pow_right (by omega) (by omega)
      omega
  constructor
  · rw [hvisits, List.pairwise_map]
    exact List.Pairwise.imp (fun h => lex_append_left preset h)
      (combsFrom_pairwise n (n - suffix_start preset) (suffix_start preset) _ (le_refl _))
  · intro t
    rw [hvisits, List.mem_map]
    constructor
    · rintro ⟨s, hs, rfl⟩
      obtain ⟨hslen, hspw, hsbd⟩ :=
        (combsFrom_mem n (n - suffix_start preset) (suffix_start preset) _ (le_refl _) s).mp hs
      refine ⟨?_, ?_, ?_, s, rfl⟩
      · rw [List.length_append, hslen]
        omega
      · rw [List.pairwise_append]
        refine ⟨hinc, hspw, fun i hi j hj => ?_⟩
        have h1 := hpre_lt i hi
        have h2 := (hsbd j hj).1
        omega
      · intro i hi
        rcases List.mem_append.mp hi with hi2 | hi2
        · have := hpre_lt i hi2
          omega
        · exact (hsbd i hi2).2
    · rintro ⟨hlen, hpw, hbd, s, rfl⟩
      refine ⟨s, ?_, rfl⟩
      rw [List.length_append] at hlen
      refine (combsFrom_mem n (n - suffix_start preset) (suffix_start preset) _ (le_refl _)
        s).mpr ⟨by omega, (List.pairwise_append.mp hpw).2.1, ?_⟩
      intro i hi
      refine ⟨?_, hbd i (List.mem_append_right _ hi)⟩
      cases hg : preset.getLast? with
      | none =>
        rw [suffix_start_of_none hg]
        omega
      | some x =>
        rw [suffix_start_of_getLast hg]
        have hxm : x ∈ preset := by
          obtain ⟨hne, rfl⟩ := List.mem_getLast?_eq_getLast (l := preset) (x := x)
            (by rw [hg]; rfl)
          exact List.getLast_mem hne
        have := (List.pairwise_append.mp hpw).2.2 x hxm i hi
        omega

/-- C1 witness: the theorem applied at three triplets, set size two and no
preset: the first combination `[0, 1]` is visited. -/
theorem combine_enumerates_w : [0, 1] ∈ combineVisits 3 2 [] :=
  ((combine_enumerates 3 2 [] (by norm_num) (by norm_num) (by norm_num) (by norm_num)
    (by simp) (by intro x hx; simp at hx)).2 [0, 1]).mpr
    ⟨by decide, by decide, by decide, [0, 1], rfl⟩

example : combineVisits 3 2 [] = [[0, 1], [0, 2], [1, 2]] := by decide

example : combineVisits 4 3 [1] = [[1, 2, 3]] := by decide

/-! ### C4: degenerate inputs to `combine()` -/

/-- C4: with set size zero `combine()` returns immediately with nothing
visited and no out-of-range access; but with an empty triplet list and a
positive set size the very first visited tuple indexes `triplets[0]`,
which is out of range for the empty vector (undefined behavior in the
C++), contradicting the claimed no-failure degenerate path. -/
theorem combine_empty_triplets_oob :
    combineVisits 0 0 [] = [] ∧ combine_oob 0 0 [] = false ∧ combine_oob 0 1 [] = true := by
  refine ⟨rfl, rfl, by decide⟩

end PowerOfTwoPairs
